import Mathlib

/-!
Verification of the format-preserving TOML serializer
(`src/toml_edit/display.rs` of cargo-sort).

The data model (`Decor`, `Repr`, `Value`, `Array`, `InlineTable`, `Item`,
`Table`, `ArrayOfTables`, `Document`) is declared outside the given source
file (in `decor.rs` / `value.rs` / `table.rs` / `document.rs`); its shape is
taken from the data-model section of the spec and from how `display.rs`
consumes it.  All rendering functions are translated directly from `display.rs`.
-/

namespace TomlEdit

/-- Prefix/suffix free text (whitespace + comments) attached to a node.
Modelled from the spec: `Decor.prefix/suffix` are opaque text.  The field
`pre` stands for the `prefix` field of the source. -/
structure Decor where
  pre : String
  suffix : String
deriving DecidableEq

/-- The preserved textual form of a scalar: decor plus opaque literal text.
Modelled from the spec: `Repr` = decor + `raw_value` literal text. -/
structure Repr where
  decor : Decor
  raw_value : String
deriving DecidableEq

/-- Display for `Repr`: `prefix ++ raw_value ++ suffix`. -/
def Repr.fmt (r : Repr) : String :=
  r.decor.pre ++ r.raw_value ++ r.decor.suffix

/-!
The tree below is mutually recursive: a `Value` can be an `Array` of values
or an `InlineTable` of key/item pairs, an `Item` can be a `Table` or an
array of tables, and tables hold items again.  Modelled from the spec
(§2/§3); the typed scalar payload of the `Formatted<T>` wrapper is
omitted because rendering goes through the `Repr` only.
-/

mutual

/-- Tagged union over scalar kinds (all rendered via their `Repr`) plus the
structured kinds `Array` and `InlineTable`.  Modelled from the spec. -/
inductive Value where
  | integer (r : Repr)
  | string (r : Repr)
  | float (r : Repr)
  | boolean (r : Repr)
  | dateTime (r : Repr)
  | array (a : Array)
  | inlineTable (t : InlineTable)

/-- Ordered sequence of Values plus decor, trailing decor, trailing-comma
flag and newline-mode flag.  Modelled from the spec. -/
inductive Array where
  | mk (values : List Value) (decor : Decor) (trailing : String)
       (trailing_comma : Bool) (newlines : Bool)

/-- Ordered key→Item mapping rendered as braces, plus decor and a preamble
text.  Modelled from the spec. -/
inductive InlineTable where
  | mk (items : List KV) (decor : Decor) (preamble : String)

/-- One key/value entry of a (inline) table: a decorated key and an item.
Modelled from the spec / the `kv.key` / `kv.value` accesses in
`display.rs`. -/
inductive KV where
  | mk (key : Repr) (value : Item)

/-- Tagged union `Item` = None | Value | Table | ArrayOfTables.  Modelled
from the spec; an `ArrayOfTables` is an ordered list of tables. -/
inductive Item where
  | none
  | value (v : Value)
  | table (t : Table)
  | arrayOfTables (a : List Table)

/-- One section: ordered key→Item mapping plus decor, the implicit-ness
flag and the optional original-position ordinal.  Modelled from the
spec. -/
inductive Table where
  | mk (items : List KV) (decor : Decor) (implicit : Bool)
       (position : Option Nat)

end

def Array.values : Array → List Value
  | .mk vs _ _ _ _ => vs

def Array.decor : Array → Decor
  | .mk _ d _ _ _ => d

def Array.trailing : Array → String
  | .mk _ _ t _ _ => t

def Array.trailing_comma : Array → Bool
  | .mk _ _ _ c _ => c

def Array.newlines : Array → Bool
  | .mk _ _ _ _ n => n

def InlineTable.items : InlineTable → List KV
  | .mk i _ _ => i

def InlineTable.decor : InlineTable → Decor
  | .mk _ d _ => d

def InlineTable.preamble : InlineTable → String
  | .mk _ _ p => p

def KV.key : KV → Repr
  | .mk k _ => k

def KV.value : KV → Item
  | .mk _ v => v

def Table.items : Table → List KV
  | .mk i _ _ _ => i

def Table.decor : Table → Decor
  | .mk _ d _ _ => d

def Table.implicit : Table → Bool
  | .mk _ _ b _ => b

def Table.position : Table → Option Nat
  | .mk _ _ _ p => p

/-- Accessor `Item::is_value`.  Modelled from the spec: accessor declared outside
`display.rs`; true exactly on the `Value` variant. -/
def Item.is_value : Item → Bool
  | .value _ => true
  | _ => false

/-- Accessor `Table::values_len`.  Modelled from the spec: the number of direct
Value entries of the table. -/
def Table.values_len (t : Table) : Nat :=
  (t.items.filter (fun kv => kv.value.is_value)).length

/-!
Structural size of a value, ignoring the strings it carries.  Used as the
termination measure of the renderer: the comma-splicing step rewrites a
decor string of a copied element but never its structure.
-/

mutual

def Value.size : Value → Nat
  | .integer _ => 1
  | .string _ => 1
  | .float _ => 1
  | .boolean _ => 1
  | .dateTime _ => 1
  | .array a => 1 + Array.size a
  | .inlineTable t => 1 + InlineTable.size t

def Array.size : Array → Nat
  | .mk vs _ _ _ _ => 1 + valuesSize vs

def valuesSize : List Value → Nat
  | [] => 0
  | v :: rest => 1 + Value.size v + valuesSize rest

def InlineTable.size : InlineTable → Nat
  | .mk items _ _ => 1 + kvsSize items

def kvsSize : List KV → Nat
  | [] => 0
  | kv :: rest => 1 + KV.size kv + kvsSize rest

def KV.size : KV → Nat
  | .mk _ it => 1 + Item.size it

def Item.size : Item → Nat
  | .none => 0
  | .value v => 1 + Value.size v
  | .table t => 1 + Table.size t
  | .arrayOfTables ts => 1 + tablesSize ts

def Table.size : Table → Nat
  | .mk items _ _ _ => 1 + kvsSize items

def tablesSize : List Table → Nat
  | [] => 0
  | t :: rest => 1 + Table.size t + tablesSize rest

end

/-- The transient clone of the last array element with a comma inserted at
the front of its own decor suffix: the insert of a comma at index 0 of
`v2.decor_mut().suffix` in `impl Display for Array`.  (`decor_mut` returns the decor of whichever
variant the value is; modelled from the spec.) -/
def Value.withCommaSuffix : Value → Value
  | .integer r => .integer ⟨⟨r.decor.pre, "," ++ r.decor.suffix⟩, r.raw_value⟩
  | .string r => .string ⟨⟨r.decor.pre, "," ++ r.decor.suffix⟩, r.raw_value⟩
  | .float r => .float ⟨⟨r.decor.pre, "," ++ r.decor.suffix⟩, r.raw_value⟩
  | .boolean r => .boolean ⟨⟨r.decor.pre, "," ++ r.decor.suffix⟩, r.raw_value⟩
  | .dateTime r => .dateTime ⟨⟨r.decor.pre, "," ++ r.decor.suffix⟩, r.raw_value⟩
  | .array (.mk vs d tr tc nl) =>
      .array (.mk vs ⟨d.pre, "," ++ d.suffix⟩ tr tc nl)
  | .inlineTable (.mk items d p) =>
      .inlineTable (.mk items ⟨d.pre, "," ++ d.suffix⟩ p)

theorem Value.size_withCommaSuffix (v : Value) :
    (Value.withCommaSuffix v).size = v.size := by
  cases v with
  | array a => cases a; simp [Value.withCommaSuffix, Value.size, Array.size]
  | inlineTable t => cases t; simp [Value.withCommaSuffix, Value.size, InlineTable.size]
  | _ => simp [Value.withCommaSuffix, Value.size]

mutual

/-- Display for `Value`: dispatch on the variant; scalars render via
their `Repr`, arrays and inline tables via their own Display. -/
def Value.fmt : Value → String
  | .integer r => r.fmt
  | .string r => r.fmt
  | .float r => r.fmt
  | .boolean r => r.fmt
  | .dateTime r => r.fmt
  | .array a => Array.fmt a
  | .inlineTable t => InlineTable.fmt t
termination_by v => v.size
decreasing_by all_goals (simp_wf; simp [Value.size]; try omega)

/-- Display for `Array`: prefix, bracket, the comma-separated
elements (with the trailing-comma splice on the last element when
`trailing_comma && newlines`), the post-loop comma when
`trailing_comma && !newlines`, the trailing decor, the closing bracket and
the suffix. -/
def Array.fmt : Array → String
  | .mk vs d tr tc nl =>
      d.pre ++ "[" ++ arrayElemsFmt vs 0 (vs.length - 1) tc nl ++
        (if tc && !nl then "," else "") ++ tr ++ "]" ++ d.suffix
termination_by a => a.size
decreasing_by all_goals (simp_wf; simp [Array.size]; try omega)

/-- The element loop of `impl Display for Array`: `i` is the index of the
head of the remaining list, `len` is `self.len().saturating_sub(1)` (the
last index); a comma precedes every element except the first, and the last
element is replaced by its comma-spliced clone when `tc && nl`. -/
def arrayElemsFmt : List Value → Nat → Nat → Bool → Bool → String
  | [], _, _, _, _ => ""
  | v :: rest, i, len, tc, nl =>
      (if i > 0 then "," else "") ++
        (if i == len && tc && nl then Value.fmt v.withCommaSuffix
         else Value.fmt v) ++
        arrayElemsFmt rest (i + 1) len tc nl
termination_by vs _ _ _ _ => valuesSize vs
decreasing_by
  all_goals (simp_wf; simp [valuesSize, Value.size_withCommaSuffix]; try omega)

/-- Display for `InlineTable`: prefix, brace, preamble, the
`key=value` pairs of the Value-kind entries comma-separated (non-Value
entries are filtered out before enumeration), closing brace, suffix. -/
def InlineTable.fmt : InlineTable → String
  | .mk items d p =>
      d.pre ++ "\x7b" ++ p ++ inlineItemsFmt items 0 ++ "\x7d" ++ d.suffix
termination_by t => t.size
decreasing_by all_goals (simp_wf; simp [InlineTable.size]; try omega)

/-- The filtered, enumerated entry loop of `impl Display for InlineTable`:
`i` counts only the entries that were kept by the `is_value` filter, and a
comma precedes every kept entry except the first kept one. -/
def inlineItemsFmt : List KV → Nat → String
  | [], _ => ""
  | ⟨k, .value v⟩ :: rest, i =>
      (if i > 0 then "," else "") ++ k.fmt ++ "=" ++ Value.fmt v ++
        inlineItemsFmt rest (i + 1)
  | _ :: rest, i => inlineItemsFmt rest i
termination_by items _ => kvsSize items
decreasing_by
  all_goals (simp_wf; simp [kvsSize, KV.size, Item.size]; try omega)

end

/-- Type `std::fmt::Error`: the single, payload-free error kind an output sink
can produce. -/
inductive FmtError where
  | mk

/-!
`Table::visit_nested_tables` threads a mutable path stack (modelled by
passing the current path in and returning the path left behind by the
call) and a fallible `FnMut` callback (modelled by a state `σ` threaded
through `Except`).  `path.push(x)` is `path ++ [x]`, `path.pop()` is
`List.dropLast`, and the `?` operator is the `.error` short-circuit.
-/

mutual

/-- Method `Table::visit_nested_tables`: invoke the callback on this table first,
then walk the items in insertion order, descending into `Table` and
`ArrayOfTables` items with the key segment pushed before the descent and
popped after it. -/
def Table.visit {σ ε : Type} (t : Table) (path : List String)
    (is_array_of_tables : Bool)
    (cb : Table → List String → Bool → σ → Except ε σ) (s : σ) :
    Except ε (List String × σ) :=
  match cb t path is_array_of_tables s with
  | .error e => .error e
  | .ok s1 => visitKVs t.items path cb s1
termination_by Table.size t
decreasing_by
  all_goals (simp_wf; cases t; simp [Table.size, Table.items]; try omega)

/-- The `for kv in self.items.values()` loop of `visit_nested_tables`. -/
def visitKVs {σ ε : Type} (l : List KV) (path : List String)
    (cb : Table → List String → Bool → σ → Except ε σ) (s : σ) :
    Except ε (List String × σ) :=
  match l with
  | [] => .ok (path, s)
  | ⟨k, .table tt⟩ :: rest =>
      match Table.visit tt (path ++ [k.raw_value]) false cb s with
      | .error e => .error e
      | .ok (p2, s2) => visitKVs rest p2.dropLast cb s2
  | ⟨k, .arrayOfTables ts⟩ :: rest =>
      match visitAot ts k.raw_value path cb s with
      | .error e => .error e
      | .ok (p2, s2) => visitKVs rest p2 cb s2
  | _ :: rest => visitKVs rest path cb s
termination_by kvsSize l
decreasing_by
  all_goals (simp_wf; simp [kvsSize, KV.size, Item.size]; try omega)

/-- The `for t in a.iter()` loop of `visit_nested_tables`: one visit per
contained table, each with the shared key segment pushed before and popped
after, flagged as array-of-tables. -/
def visitAot {σ ε : Type} (l : List Table) (k : String)
    (path : List String)
    (cb : Table → List String → Bool → σ → Except ε σ) (s : σ) :
    Except ε (List String × σ) :=
  match l with
  | [] => .ok (path, s)
  | t :: ts =>
      match Table.visit t (path ++ [k]) true cb s with
      | .error e => .error e
      | .ok (p2, s2) => visitAot ts k p2.dropLast cb s2
termination_by tablesSize l
decreasing_by
  all_goals (simp_wf; simp [tablesSize]; try omega)

end

/-- The body loop of `visit_table`: every item whose `Item` is a direct
`Value` is emitted as `key=value` plus a line break; all other item kinds
contribute nothing to the body. -/
def tableBody : List KV → String
  | [] => ""
  | kv :: rest =>
      (match kv.value with
       | .value v => kv.key.fmt ++ "=" ++ v.fmt ++ "\n"
       | _ => "") ++ tableBody rest

/-- Function `visit_table`: the header+body emission for one visited table, as a
string (the sink writes are concatenations; each `write!` either appends
or fails, and over a string buffer it appends). -/
def visit_table (table : Table) (path : List String)
    (is_array_of_tables : Bool) : String :=
  (if path.isEmpty then ""
   else if is_array_of_tables then
     table.decor.pre ++ "[[" ++ String.intercalate "." path ++ "]]" ++
       table.decor.suffix ++ "\n"
   else if !(table.implicit && table.values_len == 0) then
     table.decor.pre ++ "[" ++ String.intercalate "." path ++ "]" ++
       table.decor.suffix ++ "\n"
   else "") ++ tableBody table.items

/-- The callback of `impl Display for Table`, writing `visit_table` output
into the sink; over a string buffer it appends and never fails. -/
def renderCb : Table → List String → Bool → String → Except FmtError String :=
  fun t p b s => .ok (s ++ visit_table t p b)

/-- Display for `Table` rendered to a string buffer: visit all nested
tables starting from the empty path with the `visit_table` callback.  The
error branch models the unreachable sink failure of an in-memory buffer. -/
def Table.fmt (t : Table) : String :=
  match Table.visit t [] false renderCb "" with
  | .ok (_, s) => s
  | .error _ => ""

/-- One root table plus trailing decor text.  Modelled from the spec:
`Document` is declared outside `display.rs`. -/
structure Document where
  root : Table
  trailing : String

/-- Accessor `Document::as_table`.  Modelled from the spec: the root table of the
document. -/
def Document.as_table (d : Document) : Table := d.root

/-- Display for `Document`: the rendering of the root table followed by
the trailing decor. -/
def Document.fmt (d : Document) : String :=
  d.as_table.fmt ++ d.trailing

/-- The callback of `Document::to_string_in_original_order`: update the
running `last_position` from the position ordinal of the table when it has one,
render the table into its own buffer and push the tagged pair. -/
def origCb : Table → List String → Bool → Nat × List (Nat × String) →
    Except FmtError (Nat × List (Nat × String)) :=
  fun t p b st =>
    let last := match t.position with
      | some pos => pos
      | none => st.1
    .ok (last, st.2 ++ [(last, visit_table t p b)])

/-- One step of the stable sort: insert `x` into an already sorted list,
before the first strictly larger key and after every key ≤ its own (so an
earlier element stays before later elements with an equal key). -/
def insertByKey (x : Nat × String) : List (Nat × String) → List (Nat × String)
  | [] => [x]
  | y :: ys => if x.1 ≤ y.1 then x :: y :: ys else y :: insertByKey x ys

/-- The Rust `sort_by_key` is a stable sort; all stable sorts by the same
key agree extensionally, so it is embedded as stable insertion sort. -/
def sortByKey : List (Nat × String) → List (Nat × String)
  | [] => []
  | x :: xs => insertByKey x (sortByKey xs)

/-- Concatenation of a list of strings, as the `push_str` loop in the source. -/
def concatStrings : List String → String
  | [] => ""
  | s :: rest => s ++ concatStrings rest

/-- Method `Document::to_string_in_original_order`: collect the `(ordinal,
buffer)` pairs over the traversal, stable-sort by ordinal, concatenate and
append the trailing decor.  The error branch models the `unwrap` on the
traversal result, which only fails if a string-buffer write fails. -/
def Document.to_string_in_original_order (d : Document) : String :=
  match Table.visit d.as_table [] false origCb (0, []) with
  | .ok (_, _, tables) =>
      concatStrings ((sortByKey tables).map Prod.snd) ++ d.trailing
  | .error _ => ""

/-!
Specification-side definitions, written from the words of the spec, to be
compared with the source-side traversal above.
-/

mutual

/-- Spec-side visit sequence: depth-first pre-order — the table itself
first, then its children in item insertion order, a nested table visited
under the path extended with its key, an array-of-tables child yielding
one entry per contained table, each sharing the key segment of the parent and
flagged as array-of-tables. -/
def visitSeqSpec (t : Table) (path : List String) (b : Bool) :
    List (Table × List String × Bool) :=
  (t, path, b) :: seqKVs t.items path
termination_by Table.size t
decreasing_by
  all_goals (simp_wf; cases t; simp [Table.size, Table.items]; try omega)

/-- Spec-side child sequence of the items of a table, in insertion order. -/
def seqKVs : List KV → List String → List (Table × List String × Bool)
  | [], _ => []
  | ⟨k, .table tt⟩ :: rest, path =>
      visitSeqSpec tt (path ++ [k.raw_value]) false ++ seqKVs rest path
  | ⟨k, .arrayOfTables ts⟩ :: rest, path =>
      seqAot ts k.raw_value path ++ seqKVs rest path
  | _ :: rest, path => seqKVs rest path
termination_by l _ => kvsSize l
decreasing_by
  all_goals (simp_wf; simp [kvsSize, KV.size, Item.size]; try omega)

/-- Spec-side sequence of an array-of-tables child: one visit per table,
in order. -/
def seqAot : List Table → String → List String →
    List (Table × List String × Bool)
  | [], _, _ => []
  | t :: ts, k, path =>
      visitSeqSpec t (path ++ [k]) true ++ seqAot ts k path
termination_by l _ _ => tablesSize l
decreasing_by
  all_goals (simp_wf; simp [tablesSize]; try omega)

end

/-- Run a callback over a visit sequence, threading the state and stopping
at the first error. -/
def runCb {σ ε : Type} (cb : Table → List String → Bool → σ → Except ε σ) :
    List (Table × List String × Bool) → σ → Except ε σ
  | [], s => .ok s
  | (t, p, b) :: rest, s =>
      match cb t p b s with
      | .error e => .error e
      | .ok s2 => runCb cb rest s2

/-- Spec-side ordinal tagging: thread the most recently observed position
ordinal through the visit sequence; a table with its own ordinal replaces
it, one without inherits it. -/
def tagWithOrdinals : List (Table × List String × Bool) → Nat →
    List (Nat × String)
  | [], _ => []
  | (t, p, b) :: rest, last =>
      let last2 := match t.position with
        | some pos => pos
        | none => last
      (last2, visit_table t p b) :: tagWithOrdinals rest last2

/-- The running ordinal left after a visit sequence. -/
def lastOrdinal : List (Table × List String × Bool) → Nat → Nat
  | [], last => last
  | (t, _, _) :: rest, last =>
      lastOrdinal rest
        (match t.position with
         | some pos => pos
         | none => last)

/-- Spec-side original-order rendering: render each visited table into its
own buffer, tag it with the inherited ordinal, stable-sort by ordinal,
concatenate, append the trailing decor. -/
def originalOrderSpec (d : Document) : String :=
  concatStrings
    ((sortByKey (tagWithOrdinals (visitSeqSpec d.as_table [] false) 0)).map
      Prod.snd) ++ d.trailing

/-- The ordinal tags of the visit sequence of a document, in traversal order. -/
def ordinalTags (d : Document) : List Nat :=
  (tagWithOrdinals (visitSeqSpec d.as_table [] false) 0).map Prod.fst

/-- Modelled from the spec: the parser is outside the given source and
out of scope for the spec, so a tree produced by parsing valid text T
with no further mutation is characterised by the two collaborator
contracts the spec states for it — the nodes carry decor that reproduces
the source text under the natural-order render, and the position ordinals were
assigned monotonically in source order, which on an unmodified document
coincides with traversal order. -/
def ParsedFrom (T : String) (d : Document) : Prop :=
  Document.fmt d = T ∧ List.Pairwise (· ≤ ·) (ordinalTags d)

/-- The string of one visit-sequence entry. -/
def entryString (x : Table × List String × Bool) : String :=
  visit_table x.1 x.2.1 x.2.2

/-- The decor suffix of whichever variant a value is (the suffix the
`decor_mut` call of the array renderer reaches).  Modelled from the spec:
the `decor` accessor is declared outside `display.rs`. -/
def Value.decorSuffix : Value → String
  | .integer r => r.decor.suffix
  | .string r => r.decor.suffix
  | .float r => r.decor.suffix
  | .boolean r => r.decor.suffix
  | .dateTime r => r.decor.suffix
  | .array a => a.decor.suffix
  | .inlineTable t => t.decor.suffix

/-!
Concrete objects used by the example parts of the claims.
-/

/-- Empty decor. -/
def emptyDecor : Decor := ⟨"", ""⟩

/-- Decor whose suffix is one line break. -/
def nlDecor : Decor := ⟨"", "\n"⟩

/-- An undecorated key. -/
def bareKey (s : String) : Repr := ⟨emptyDecor, s⟩

/-- An undecorated integer value with literal text `s`. -/
def intVal (s : String) : Value := .integer ⟨emptyDecor, s⟩

/-- An integer value whose suffix ends in a line break. -/
def intValNl (s : String) : Value := .integer ⟨nlDecor, s⟩

/-- Tables named "a", "b", "c" with position ordinals 2, 5, 8. -/
def exTableA : Table := .mk [] emptyDecor false (some 2)

/-- See `exTableA`. -/
def exTableB : Table := .mk [] emptyDecor false (some 5)

/-- See `exTableA`. -/
def exTableC : Table := .mk [] emptyDecor false (some 8)

/-- A document whose root holds the tables b (ordinal 5), a (ordinal 2),
c (ordinal 8) in container order [b, a, c]. -/
def exDocBAC : Document :=
  ⟨.mk [⟨bareKey "b", .table exTableB⟩, ⟨bareKey "a", .table exTableA⟩,
      ⟨bareKey "c", .table exTableC⟩] emptyDecor false Option.none, ""⟩

/-- A document as the parser would build it for the text `[a]\n`: a
position-less implicit root holding one explicit table at ordinal 1. -/
def exParsedDoc : Document :=
  ⟨.mk [⟨bareKey "a", .table (.mk [] emptyDecor false (some 1))⟩]
      emptyDecor false Option.none, ""⟩

/-- A childless root table. -/
def exRootEmpty : Table := .mk [] emptyDecor false Option.none

/-- A callback that fails at every visit (a sink refusing all writes). -/
def failCb : Table → List String → Bool → Nat → Except FmtError Nat :=
  fun _ _ _ _ => .error .mk

/-- A table with one direct value `x=1`. -/
def exTableX1 : Table :=
  .mk [⟨bareKey "x", .value (intVal "1")⟩] emptyDecor false Option.none

/-- An inline table holding one Value entry then one None entry. -/
def exInline1 : InlineTable :=
  .mk [⟨bareKey "a", .value (intVal "1")⟩, ⟨bareKey "b", .none⟩] emptyDecor ""

/-- An inline table holding one None entry then one Value entry. -/
def exInline2 : InlineTable :=
  .mk [⟨bareKey "b", .none⟩, ⟨bareKey "a", .value (intVal "1")⟩] emptyDecor ""

/-!
The traversal refinement: `Table::visit_nested_tables` is exactly the
sequential run of the callback over the spec-side pre-order visit
sequence, and it returns the path stack it was given.
-/

theorem dropLast_push {α : Type} (l : List α) (a : α) :
    (l ++ [a]).dropLast = l := by
  simp

theorem runCb_append {σ ε : Type}
    (cb : Table → List String → Bool → σ → Except ε σ)
    (l1 l2 : List (Table × List String × Bool)) (s : σ) :
    runCb cb (l1 ++ l2) s =
      match runCb cb l1 s with
      | .error e => .error e
      | .ok s2 => runCb cb l2 s2 := by
  induction l1 generalizing s with
  | nil => simp [runCb]
  | cons x rest ih =>
      obtain ⟨t, p, b⟩ := x
      simp only [List.cons_append, runCb]
      cases h : cb t p b s <;> simp [ih]

mutual

theorem visit_eq_runCb {σ ε : Type} (t : Table) (path : List String)
    (b : Bool) (cb : Table → List String → Bool → σ → Except ε σ) (s : σ) :
    Table.visit t path b cb s =
      (runCb cb (visitSeqSpec t path b) s).map (fun s2 => (path, s2)) := by
  rw [Table.visit, visitSeqSpec]
  simp only [runCb]
  cases h : cb t path b s with
  | error e => simp [Except.map]
  | ok s1 => simpa using visitKVs_eq_runCb t.items path cb s1
termination_by Table.size t
decreasing_by
  all_goals (simp_wf; cases t; simp [Table.size, Table.items]; try omega)

theorem visitKVs_eq_runCb {σ ε : Type} (l : List KV) (path : List String)
    (cb : Table → List String → Bool → σ → Except ε σ) (s : σ) :
    visitKVs l path cb s =
      (runCb cb (seqKVs l path) s).map (fun s2 => (path, s2)) := by
  match l with
  | [] => simp [visitKVs, seqKVs, runCb, Except.map]
  | ⟨k, .table tt⟩ :: rest =>
      rw [visitKVs, seqKVs, runCb_append]
      rw [visit_eq_runCb tt (path ++ [k.raw_value]) false cb s]
      cases h : runCb cb (visitSeqSpec tt (path ++ [k.raw_value]) false) s with
      | error e => simp [Except.map]
      | ok s2 =>
          simp only [Except.map, dropLast_push]
          exact visitKVs_eq_runCb rest path cb s2
  | ⟨k, .arrayOfTables ts⟩ :: rest =>
      rw [visitKVs, seqKVs, runCb_append]
      rw [visitAot_eq_runCb ts k.raw_value path cb s]
      cases h : runCb cb (seqAot ts k.raw_value path) s with
      | error e => simp [Except.map]
      | ok s2 =>
          simp only [Except.map]
          exact visitKVs_eq_runCb rest path cb s2
  | ⟨k, .none⟩ :: rest =>
      rw [visitKVs, seqKVs]
      · exact visitKVs_eq_runCb rest path cb s
      all_goals nofun
  | ⟨k, .value v⟩ :: rest =>
      rw [visitKVs, seqKVs]
      · exact visitKVs_eq_runCb rest path cb s
      all_goals nofun
termination_by kvsSize l
decreasing_by
  all_goals (simp_wf; simp [kvsSize, KV.size, Item.size]; try omega)

theorem visitAot_eq_runCb {σ ε : Type} (l : List Table) (k : String)
    (path : List String)
    (cb : Table → List String → Bool → σ → Except ε σ) (s : σ) :
    visitAot l k path cb s =
      (runCb cb (seqAot l k path) s).map (fun s2 => (path, s2)) := by
  match l with
  | [] => simp [visitAot, seqAot, runCb, Except.map]
  | t :: ts =>
      rw [visitAot, seqAot, runCb_append]
      rw [visit_eq_runCb t (path ++ [k]) true cb s]
      cases h : runCb cb (visitSeqSpec t (path ++ [k]) true) s with
      | error e => simp [Except.map]
      | ok s2 =>
          simp only [Except.map, dropLast_push]
          exact visitAot_eq_runCb ts k path cb s2
termination_by tablesSize l
decreasing_by
  all_goals (simp_wf; simp [tablesSize]; try omega)

end

/-!
The two concrete callbacks never fail, and their runs compute the natural
render and the tagged-buffer collection respectively.
-/

theorem runCb_renderCb (l : List (Table × List String × Bool)) (s : String) :
    runCb renderCb l s = .ok (s ++ concatStrings (l.map entryString)) := by
  induction l generalizing s with
  | nil => simp [runCb, concatStrings]
  | cons x rest ih =>
      obtain ⟨t, p, b⟩ := x
      simp [runCb, renderCb, ih, entryString, concatStrings, String.append_assoc]

theorem runCb_origCb (l : List (Table × List String × Bool)) (last : Nat)
    (acc : List (Nat × String)) :
    runCb origCb l (last, acc) =
      .ok (lastOrdinal l last, acc ++ tagWithOrdinals l last) := by
  induction l generalizing last acc with
  | nil => simp [runCb, lastOrdinal, tagWithOrdinals]
  | cons x rest ih =>
      obtain ⟨t, p, b⟩ := x
      simp only [runCb, origCb, lastOrdinal, tagWithOrdinals]
      cases t.position <;> simp [ih]

/-- Display for `Table` is the concatenation of the `visit_table`
strings over the pre-order visit sequence. -/
theorem tableFmt_eq (t : Table) :
    Table.fmt t = concatStrings ((visitSeqSpec t [] false).map entryString) := by
  rw [Table.fmt, visit_eq_runCb, runCb_renderCb]
  simp [Except.map]

/-- The natural-order document render: all visit-sequence strings in
traversal order, then the trailing decor. -/
theorem documentFmt_eq (d : Document) :
    Document.fmt d =
      concatStrings ((visitSeqSpec d.as_table [] false).map entryString) ++
        d.trailing := by
  rw [Document.fmt, tableFmt_eq]

/-- The original-order traversal never fails and collects exactly the
ordinal-tagged buffers of the visit sequence. -/
theorem origVisit_ok (d : Document) :
    Table.visit d.as_table [] false origCb (0, []) =
      .ok ([], lastOrdinal (visitSeqSpec d.as_table [] false) 0,
        tagWithOrdinals (visitSeqSpec d.as_table [] false) 0) := by
  rw [visit_eq_runCb, runCb_origCb]
  simp [Except.map]

/-- Method `to_string_in_original_order` is the spec-side pipeline: tag, stable
sort, concatenate, append trailing decor. -/
theorem to_string_in_original_order_eq (d : Document) :
    d.to_string_in_original_order = originalOrderSpec d := by
  rw [Document.to_string_in_original_order, origVisit_ok, originalOrderSpec]

/-- The buffers of the tagged collection are the visit-sequence strings in
traversal order. -/
theorem tagWithOrdinals_map_snd (l : List (Table × List String × Bool)) :
    ∀ last, (tagWithOrdinals l last).map Prod.snd = l.map entryString := by
  induction l with
  | nil => intro last; simp [tagWithOrdinals]
  | cons x rest ih =>
      intro last
      obtain ⟨t, p, b⟩ := x
      simp [tagWithOrdinals, ih, entryString]

/-- Inserting an element whose key is at most every key of the target list
puts it in front. -/
theorem insertByKey_front (x : Nat × String) (l : List (Nat × String))
    (h : ∀ y ∈ l, x.1 ≤ y.1) : insertByKey x l = x :: l := by
  cases l with
  | nil => simp [insertByKey]
  | cons y ys =>
      have := h y (by simp)
      simp [insertByKey, this]

/-- A list whose keys are already non-decreasing is left unchanged by the
stable sort. -/
theorem sortByKey_of_pairwise (l : List (Nat × String))
    (h : List.Pairwise (fun a b => a.1 ≤ b.1) l) : sortByKey l = l := by
  induction l with
  | nil => simp [sortByKey]
  | cons x xs ih =>
      rw [List.pairwise_cons] at h
      rw [sortByKey, ih h.2, insertByKey_front x xs h.1]

/-- The body is the concatenation, over the items in table order, of one
`key=value` line per direct-Value item and nothing for the others. -/
theorem tableBody_eq (l : List KV) :
    tableBody l = concatStrings (l.map fun kv =>
      match kv.value with
      | .value v => kv.key.fmt ++ "=" ++ v.fmt ++ "\n"
      | _ => "") := by
  induction l with
  | nil => simp [tableBody, concatStrings]
  | cons kv rest ih => simp [tableBody, concatStrings, ih]

/-- Dropping the non-Value entries before the enumerated loop does not
change the inline-table entry rendering, whatever the running count. -/
theorem inlineItemsFmt_filter (l : List KV) :
    ∀ i, inlineItemsFmt l i =
      inlineItemsFmt (l.filter fun kv => kv.value.is_value) i := by
  induction l with
  | nil => intro i; simp
  | cons kv rest ih =>
      intro i
      obtain ⟨k, it⟩ := kv
      cases it <;>
        simp [inlineItemsFmt, Item.is_value, KV.value, List.filter, ih]

/-!
The claims.
-/

/-- C2: the array comma matrix for elements 1,2,3 with no extra decor:
`trailing_comma=false` renders `[1,2,3]`; `trailing_comma=true,
newlines=false` renders `[1,2,3,]`; `trailing_comma=true, newlines=true`
with each element suffix ending in a line break puts the comma immediately
before the line break on the last element only, the comma being spliced to
the front of the suffix of that element rather than appended after it. -/
theorem array_comma_matrix :
    Array.fmt (.mk [intVal "1", intVal "2", intVal "3"]
        emptyDecor "" false false) = "[1,2,3]" ∧
    Array.fmt (.mk [intVal "1", intVal "2", intVal "3"]
        emptyDecor "" true false) = "[1,2,3,]" ∧
    Array.fmt (.mk [intValNl "1", intValNl "2", intValNl "3"]
        emptyDecor "" true true) = "[1\n,2\n,3,\n]" := by
  refine ⟨?_, ?_, ?_⟩ <;>
    simp [Array.fmt, arrayElemsFmt, Value.fmt, Value.withCommaSuffix,
      Repr.fmt, intVal, intValNl, emptyDecor, nlDecor]

/-- C3: single-table emission: an empty path emits no header, only the
body; a non-empty path with the array-of-tables flag emits the
double-bracket header plus a line break and the body; a non-empty path
without the flag emits the single-bracket header unless the table is
implicit with zero direct Value entries, in which case no header; the body
is one `key=value` line per direct-Value item in table order and nothing
for nested tables, arrays of tables or None items. -/
theorem visit_table_emission (t : Table) (path : List String) (b : Bool) :
    (path = [] → visit_table t path b = tableBody t.items) ∧
    (path ≠ [] → visit_table t path true =
      t.decor.pre ++ "[[" ++ String.intercalate "." path ++ "]]" ++
        t.decor.suffix ++ "\n" ++ tableBody t.items) ∧
    (path ≠ [] → (t.implicit && t.values_len == 0) = false →
      visit_table t path false =
        t.decor.pre ++ "[" ++ String.intercalate "." path ++ "]" ++
          t.decor.suffix ++ "\n" ++ tableBody t.items) ∧
    (path ≠ [] → (t.implicit && t.values_len == 0) = true →
      visit_table t path false = tableBody t.items) ∧
    tableBody t.items = concatStrings (t.items.map fun kv =>
      match kv.value with
      | .value v => kv.key.fmt ++ "=" ++ v.fmt ++ "\n"
      | _ => "") := by
  refine ⟨?_, ?_, ?_, ?_, tableBody_eq t.items⟩
  · intro h
    subst h
    simp [visit_table]
  · intro h
    cases path with
    | nil => exact absurd rfl h
    | cons a as => simp [visit_table, String.append_assoc]
  · intro h hb
    cases path with
    | nil => exact absurd rfl h
    | cons a as => simp [visit_table, hb, String.append_assoc]
  · intro h hb
    cases path with
    | nil => exact absurd rfl h
    | cons a as => simp [visit_table, hb]

/-- C3 witness: a non-implicit table with one direct value, visited at
path ["a","b"] without the array-of-tables flag, emits the single-bracket
header and the body line. -/
theorem visit_table_emission_witness :
    visit_table exTableX1 ["a", "b"] false = "[a.b]\nx=1\n" := by
  have h := (visit_table_emission exTableX1 ["a", "b"] false).2.2.1
    (by decide) (by decide)
  rw [h]
  simp only [exTableX1, Table.decor, Table.items, tableBody, KV.key,
    KV.value, bareKey, intVal, emptyDecor, Value.fmt, Repr.fmt]
  decide

/-- C4: `to_string_in_original_order` equals the spec pipeline — render
each visited table into its own buffer, tag it with the most recently
observed ordinal (inherited when the table has none), stable-sort by
ordinal with ties keeping traversal order, concatenate, append the
trailing decor; and on tables b (ordinal 5), a (ordinal 2), c (ordinal 8)
stored in container order [b, a, c], the natural-order render emits b, a,
c while the original-order render emits a, b, c. -/
theorem original_order_render :
    (∀ d : Document, d.to_string_in_original_order = originalOrderSpec d) ∧
    Document.fmt exDocBAC = "[b]\n[a]\n[c]\n" ∧
    exDocBAC.to_string_in_original_order = "[a]\n[b]\n[c]\n" := by
  refine ⟨to_string_in_original_order_eq, ?_, ?_⟩
  · rw [documentFmt_eq]
    simp only [exDocBAC, exTableA, exTableB, exTableC, Document.as_table,
      visitSeqSpec, seqKVs, Table.items]
    decide
  · rw [to_string_in_original_order_eq, originalOrderSpec]
    simp only [exDocBAC, exTableA, exTableB, exTableC, Document.as_table,
      visitSeqSpec, seqKVs, Table.items]
    decide

/-- C5: `visit_nested_tables` is the sequential run of the callback over
the spec-side pre-order visit sequence (the table itself first, children
in item insertion order, one visit per array-of-tables element sharing the
key segment of the parent and flagged as array-of-tables), and it returns the
path stack exactly as it received it, so no segment leaks across sibling
subtrees. -/
theorem visit_nested_tables_preorder {σ ε : Type} (t : Table)
    (path : List String) (b : Bool)
    (cb : Table → List String → Bool → σ → Except ε σ) (s : σ) :
    Table.visit t path b cb s =
      (runCb cb (visitSeqSpec t path b) s).map (fun s2 => (path, s2)) :=
  visit_eq_runCb t path b cb s

/-- C7: if the callback succeeds along a prefix of the visit sequence and
then fails, the whole traversal returns that error immediately — the
result is the error whatever visits would have come later, so nothing
after the failing step is visited, with no retry or skip-and-continue. -/
theorem callback_error_aborts {σ ε : Type}
    (cb : Table → List String → Bool → σ → Except ε σ)
    (t : Table) (path : List String) (b : Bool) (s s1 : σ) (e : ε)
    (x : Table × List String × Bool)
    (l1 l2 : List (Table × List String × Bool))
    (hseq : visitSeqSpec t path b = l1 ++ x :: l2)
    (h1 : runCb cb l1 s = .ok s1)
    (h2 : cb x.1 x.2.1 x.2.2 s1 = .error e) :
    Table.visit t path b cb s = .error e := by
  obtain ⟨xt, xp, xb⟩ := x
  rw [visit_eq_runCb, hseq, runCb_append, h1]
  simp only [runCb]
  rw [h2]
  simp [Except.map]

/-- C7 witness: a callback that fails at the very first visit makes the
traversal of a childless root return exactly that error. -/
theorem callback_error_aborts_witness :
    Table.visit exRootEmpty [] false failCb 0 = .error FmtError.mk :=
  callback_error_aborts failCb exRootEmpty [] false 0 0 FmtError.mk
    (exRootEmpty, [], false) [] []
    (by simp [visitSeqSpec, seqKVs, exRootEmpty, Table.items]) rfl rfl

/-- C6: an inline table renders prefix, brace, preamble, then only the
entries whose item is a Value as comma-separated `key=value` pairs —
entries of any other kind are skipped entirely, including from the comma
count — then the closing brace and suffix; concretely, one Value entry
plus one None entry renders exactly the Value entry with no stray comma,
in either order. -/
theorem inline_table_filtering :
    (∀ (items : List KV) (d : Decor) (p : String),
      InlineTable.fmt (.mk items d p) =
        InlineTable.fmt (.mk (items.filter fun kv => kv.value.is_value) d p)) ∧
    InlineTable.fmt exInline1 = "\x7ba=1\x7d" ∧
    InlineTable.fmt exInline2 = "\x7ba=1\x7d" := by
  refine ⟨?_, ?_, ?_⟩
  · intro items d p
    simp only [InlineTable.fmt]
    rw [inlineItemsFmt_filter]
  · simp [exInline1, InlineTable.fmt, inlineItemsFmt, intVal, bareKey,
      emptyDecor, Value.fmt, Repr.fmt]
  · simp [exInline2, InlineTable.fmt, inlineItemsFmt, intVal, bareKey,
      emptyDecor, Value.fmt, Repr.fmt]

/-- C8: the renderer never needs to alter the tree it renders: the one
comma splice acts on a transient copy of the last element, and rendering
that copy equals a pure local formatting decision — render the own text
of the element, then the comma, then its unchanged decor suffix —
while the original element still renders to text plus suffix unchanged. -/
theorem splice_is_pure_and_local (v : Value) :
    ∃ core, Value.fmt v = core ++ v.decorSuffix ∧
      Value.fmt v.withCommaSuffix = core ++ ("," ++ v.decorSuffix) := by
  cases v with
  | array a =>
      obtain ⟨vs, d, tr, tc, nl⟩ := a
      refine ⟨d.pre ++ "[" ++ arrayElemsFmt vs 0 (vs.length - 1) tc nl ++
        (if tc && !nl then "," else "") ++ tr ++ "]", ?_, ?_⟩ <;>
        simp [Value.fmt, Array.fmt, Value.withCommaSuffix, Value.decorSuffix,
          Array.values, Array.decor, Array.trailing, Array.trailing_comma,
          Array.newlines, String.append_assoc]
  | inlineTable t =>
      obtain ⟨items, d, p⟩ := t
      refine ⟨d.pre ++ "\x7b" ++ p ++ inlineItemsFmt items 0 ++ "\x7d",
        ?_, ?_⟩ <;>
        simp [Value.fmt, InlineTable.fmt, Value.withCommaSuffix,
          Value.decorSuffix, InlineTable.decor, String.append_assoc]
  | integer r =>
      exact ⟨r.decor.pre ++ r.raw_value,
        by simp [Value.fmt, Repr.fmt, Value.decorSuffix, String.append_assoc],
        by simp [Value.fmt, Value.withCommaSuffix, Repr.fmt,
          Value.decorSuffix, String.append_assoc]⟩
  | string r =>
      exact ⟨r.decor.pre ++ r.raw_value,
        by simp [Value.fmt, Repr.fmt, Value.decorSuffix, String.append_assoc],
        by simp [Value.fmt, Value.withCommaSuffix, Repr.fmt,
          Value.decorSuffix, String.append_assoc]⟩
  | float r =>
      exact ⟨r.decor.pre ++ r.raw_value,
        by simp [Value.fmt, Repr.fmt, Value.decorSuffix, String.append_assoc],
        by simp [Value.fmt, Value.withCommaSuffix, Repr.fmt,
          Value.decorSuffix, String.append_assoc]⟩
  | boolean r =>
      exact ⟨r.decor.pre ++ r.raw_value,
        by simp [Value.fmt, Repr.fmt, Value.decorSuffix, String.append_assoc],
        by simp [Value.fmt, Value.withCommaSuffix, Repr.fmt,
          Value.decorSuffix, String.append_assoc]⟩
  | dateTime r =>
      exact ⟨r.decor.pre ++ r.raw_value,
        by simp [Value.fmt, Repr.fmt, Value.decorSuffix, String.append_assoc],
        by simp [Value.fmt, Value.withCommaSuffix, Repr.fmt,
          Value.decorSuffix, String.append_assoc]⟩

/-- C9: rendering is deterministic — both renders are pure functions of
the tree, so rendering the same unmodified tree twice yields identical
text both times, for the natural-order and the original-order render. -/
theorem render_deterministic (d1 d2 : Document) (h : d1 = d2) :
    Document.fmt d1 = Document.fmt d2 ∧
      d1.to_string_in_original_order = d2.to_string_in_original_order := by
  subst h
  exact ⟨rfl, rfl⟩

/-- C9 witness: the two renders of one concrete document, taken twice,
agree. -/
theorem render_deterministic_witness :
    Document.fmt exDocBAC = Document.fmt exDocBAC ∧
      exDocBAC.to_string_in_original_order =
        exDocBAC.to_string_in_original_order :=
  render_deterministic exDocBAC exDocBAC rfl

/-- C10: `to_string_in_original_order` is total: the traversal writes only
into in-memory string buffers through a callback that always returns
`.ok`, so the traversal result is always `.ok` — the error branch behind
the `unwrap` in the source is unreachable — and the function always returns the
sorted concatenation plus trailing decor. -/
theorem original_order_total (d : Document) :
    (∃ r, Table.visit d.as_table [] false origCb (0, []) = Except.ok r) ∧
      d.to_string_in_original_order = originalOrderSpec d :=
  ⟨⟨_, origVisit_ok d⟩, to_string_in_original_order_eq d⟩

/-- C1: a tree produced by parsing valid text T with no further mutation
(modelled per the collaborator contracts in the spec: its natural render
reproduces T and its position ordinals are non-decreasing in traversal
order) renders back to T byte-for-byte under both the natural-order render
and the original-source-order render. -/
theorem parsed_round_trip (T : String) (d : Document)
    (h : ParsedFrom T d) :
    Document.fmt d = T ∧ d.to_string_in_original_order = T := by
  obtain ⟨hfmt, hmono⟩ := h
  refine ⟨hfmt, ?_⟩
  have hpair : List.Pairwise (fun a b : Nat × String => a.1 ≤ b.1)
      (tagWithOrdinals (visitSeqSpec d.as_table [] false) 0) := by
    unfold ordinalTags at hmono
    exact List.pairwise_map.mp hmono
  rw [to_string_in_original_order_eq, originalOrderSpec,
    sortByKey_of_pairwise _ hpair, tagWithOrdinals_map_snd,
    ← documentFmt_eq, hfmt]

/-- C1 witness: the document parsed from the text `[a]\n` satisfies the
parsed-ness contract and round-trips under both renders. -/
theorem parsed_round_trip_witness :
    ParsedFrom "[a]\n" exParsedDoc ∧
      (Document.fmt exParsedDoc = "[a]\n" ∧
        exParsedDoc.to_string_in_original_order = "[a]\n") := by
  have h : ParsedFrom "[a]\n" exParsedDoc := by
    unfold ParsedFrom
    constructor
    · rw [documentFmt_eq]
      simp only [exParsedDoc, Document.as_table, visitSeqSpec, seqKVs,
        Table.items]
      decide
    · unfold ordinalTags
      simp only [exParsedDoc, Document.as_table, visitSeqSpec, seqKVs,
        Table.items]
      decide
  exact ⟨h, parsed_round_trip "[a]\n" exParsedDoc h⟩

end TomlEdit
